import Mathlib

/-!
Shallow embedding of the PAA loss-computation core
(`paa_core/modeling/rpn/paa/loss.py`) and verification of its
specification claims.

Conventions:
* torch tensors of box coordinates and losses are lists of rationals;
* the decoded boxes fed to `GIoULoss` are taken as inputs (the box
  coder lives outside this repository); per the spec, decode clamps so
  that `x2 ≥ x1` and `y2 ≥ y1` — theorems take this as a hypothesis on
  targets, while predictions are clamped inside `GIoULoss` itself
  (lines 53-54 of the source);
* the per-image data consumed by `compute_paa` (IoU-based labels,
  anchor scores, matched indices, per-level anchor counts, ground
  truths) is the `PaaInput` structure;
* the sklearn Gaussian-mixture fit is an external collaborator; the
  engine is parameterized by a `fit` function returning the component
  assignment (false = component 0) and the per-sample log-likelihood.
-/

namespace PAA

/-- An axis-aligned box, `(x1, y1, x2, y2)` corner form. -/
structure Box where
  x1 : ℚ
  y1 : ℚ
  x2 : ℚ
  y2 : ℚ
deriving DecidableEq

/-- The `1e-7` epsilon added to union and enclosing areas (lines 76, 78). -/
def eps : ℚ := 1 / 10000000

/-- Lines 53-54: `pred_x2 = torch.max(pred_x1, pred_x2)` and likewise for `y`. -/
def clampPred (b : Box) : Box := ⟨b.x1, b.y1, max b.x1 b.x2, max b.y1 b.y2⟩

/-- `(x2 - x1) * (y2 - y1)` (lines 55, 62). -/
def boxArea (b : Box) : ℚ := (b.x2 - b.x1) * (b.y2 - b.y1)

/-- Lines 64-70: intersection area, explicitly zeroed unless both
overlaps are strictly positive. -/
def interArea (p t : Box) : ℚ :=
  if max p.x1 t.x1 < min p.x2 t.x2 ∧ max p.y1 t.y1 < min p.y2 t.y2 then
    (min p.x2 t.x2 - max p.x1 t.x1) * (min p.y2 t.y2 - max p.y1 t.y1)
  else 0

/-- Line 78: `area_union = pred_area + target_area - area_intersect + 1e-7`. -/
def unionArea (p t : Box) : ℚ := boxArea p + boxArea t - interArea p t + eps

/-- Lines 72-76: area of the smallest enclosing box, plus `1e-7`. -/
def enclosingArea (p t : Box) : ℚ :=
  (max p.x2 t.x2 - min p.x1 t.x1) * (max p.y2 t.y2 - min p.y1 t.y1) + eps

/-- Lines 47-82 of `GIoULoss` for one decoded pred/target pair:
`1 - (iou - (enclosing - union) / enclosing)`. -/
def giouLossPair (p0 t : Box) : ℚ :=
  let p := clampPred p0
  1 - (interArea p t / unionArea p t
        - (enclosingArea p t - unionArea p t) / enclosingArea p t)

/-- Lines 84-88: weight handling and the non-empty assertion of
`GIoULoss`, over the already-decoded box lists. -/
def GIoULoss (preds targets : List Box) (weight : Option (List ℚ)) :
    Except String (List ℚ) :=
  let losses := List.zipWith giouLossPair preds targets
  match weight with
  | some w =>
    if 0 < w.sum then Except.ok (List.zipWith (fun l x => l * x) losses w)
    else if losses.length ≠ 0 then Except.ok losses
    else Except.error "InvalidArgument: losses.numel() == 0"
  | none =>
    if losses.length ≠ 0 then Except.ok losses
    else Except.error "InvalidArgument: losses.numel() == 0"

/-- The per-image inputs of `compute_paa` (lines 130-150): per-level
anchor counts, the TOPK constant, ground-truth classes and boxes, and
the flattened per-anchor IoU-based labels, anchor scores and matched
ground-truth indices. -/
structure PaaInput where
  levels : List Nat
  topK : Nat
  gtLabels : List Int
  gtBoxes : List Box
  labelsAll : List Int
  lossAll : List ℚ
  matchedIdx : List Int

def zeroBox : Box := ⟨0, 0, 0, 0⟩

def lossAt (inp : PaaInput) (i : Nat) : ℚ := inp.lossAll.getD i 0

def labelAt (inp : PaaInput) (i : Nat) : Int := inp.labelsAll.getD i 0

def matchedAt (inp : PaaInput) (i : Nat) : Int := inp.matchedIdx.getD i (-1)

def numAnchors (inp : PaaInput) : Nat := inp.levels.sum

def numGt (inp : PaaInput) : Nat := inp.gtBoxes.length

def gtLabelAt (inp : PaaInput) (g : Nat) : Int := inp.gtLabels.getD g 0

def gtBoxAt (inp : PaaInput) (g : Nat) : Box := inp.gtBoxes.getD g zeroBox

/-- The ascending order used to model `torch.sort` / `topk(..., largest=False)`:
compare by the value under `f`, breaking ties by position (a stable sort). -/
def keyLT (f : Nat → ℚ) (a b : Nat) : Prop := f a < f b ∨ (f a = f b ∧ a ≤ b)

instance keyLT.decidableRel (f : Nat → ℚ) : DecidableRel (keyLT f) := fun a b => by
  unfold keyLT
  exact inferInstance

instance keyLT.isTotal (f : Nat → ℚ) : IsTotal Nat (keyLT f) where
  total a b := by
    rcases lt_trichotomy (f a) (f b) with h | h | h
    · exact Or.inl (Or.inl h)
    · rcases Nat.le_total a b with hab | hab
      · exact Or.inl (Or.inr ⟨h, hab⟩)
      · exact Or.inr (Or.inr ⟨h.symm, hab⟩)
    · exact Or.inr (Or.inl h)

instance keyLT.isTrans (f : Nat → ℚ) : IsTrans Nat (keyLT f) where
  trans a b c hab hbc := by
    rcases hab with hab | ⟨hab, hab'⟩
    · rcases hbc with hbc | ⟨hbc, _⟩
      · exact Or.inl (hab.trans hbc)
      · exact Or.inl (hbc ▸ hab)
    · rcases hbc with hbc | ⟨hbc, hbc'⟩
      · exact Or.inl (hab ▸ hbc)
      · exact Or.inr ⟨hab.trans hbc, hab'.trans hbc'⟩

/-- Sort a list of indices ascending by `f` (ties by index). -/
def sortByKey (f : Nat → ℚ) (l : List Nat) : List Nat :=
  List.insertionSort (keyLT f) l

/-- Lines 162-170: global indices of the anchors of level `lv` whose
IoU-based matched index equals `g` and whose IoU-based label is
positive, in index order. -/
def levelStart (inp : PaaInput) (lv : Nat) : Nat := (inp.levels.take lv).sum

def matchIdxLevel (inp : PaaInput) (g lv : Nat) : List Nat :=
  ((List.range (inp.levels.getD lv 0)).map (fun j => j + levelStart inp lv)).filter
    (fun i => decide (matchedAt inp i = (g : Int) ∧ 0 < labelAt inp i))

/-- Lines 171-175: the `min(count, TOPK)` lowest-scored matching anchors
of one level, ascending by score. -/
def candLevel (inp : PaaInput) (g lv : Nat) : List Nat :=
  (sortByKey (lossAt inp) (matchIdxLevel inp g lv)).take inp.topK

/-- Lines 156-180: the candidate set of ground truth `g`, the per-level
top-k lists concatenated across levels (`[]` plays the role of `None`). -/
def candidates (inp : PaaInput) (g : Nat) : List Nat :=
  ((List.range inp.levels.length).map (fun lv => candLevel inp g lv)).flatten

/-- Lines 208-213: from the component assignment (false = component 0)
and log-likelihoods over the sorted candidates, the cutoff rank
`fg_max_idx`: the first rank assigned to component 0 whose
log-likelihood attains the component-0 maximum; `none` when no sample
lands in component 0. -/
def fgCut (comps : List Bool) (scores : List ℚ) : Option Nat :=
  let fgIdx := (List.range comps.length).filter (fun r => decide (comps.getD r true = false))
  match (fgIdx.map (fun r => scores.getD r 0)).max? with
  | none => none
  | some m => fgIdx.find? (fun r => decide (scores.getD r 0 = m))

/-- Indexed assignment `tensor[idxs] = v` as a fold of `List.set`. -/
def setAll {α : Type} (l : List α) (idxs : List Nat) (v : α) : List α :=
  idxs.foldl (fun acc i => acc.set i v) l

/-- The per-image mutable state of the engine: the final labels
(line 184), the assigned ground-truth boxes `matched_gts` (line 185),
and the `is_grey` selector (line 188). -/
structure PaaState where
  labels : List Int
  boxes : List Box
  isGrey : Option (List Nat)
deriving DecidableEq

/-- Lines 184-188: labels start at zero; `matched_gts` starts at the
IoU-matched box for anchors with a non-negative matched index and at
zero elsewhere; `is_grey` starts as `None`. -/
def initState (inp : PaaInput) : PaaState :=
  { labels := List.replicate (numAnchors inp) 0
  , boxes := (List.range (numAnchors inp)).map (fun i =>
      if 0 ≤ matchedAt inp i then gtBoxAt inp (matchedAt inp i).toNat else zeroBox)
  , isGrey := none }

/-- The anchor score of the candidate at position `p` of `cand`. -/
def candLoss (inp : PaaInput) (cand : List Nat) (p : Nat) : ℚ :=
  lossAt inp (cand.getD p 0)

/-- Line 193: `candidate_loss, inds = candidate_loss.sort()` — `inds` as
positions into the candidate list, one per ascending-score rank. -/
def ranksOf (inp : PaaInput) (g : Nat) : List Nat :=
  sortByKey (candLoss inp (candidates inp g)) (List.range (candidates inp g).length)

/-- The sorted candidate scores handed to the mixture fit (lines 193-203). -/
def sortedLossOf (inp : PaaInput) (g : Nat) : List ℚ :=
  (ranksOf inp g).map (candLoss inp (candidates inp g))

/-- Line 204: the per-sorted-rank component assignment returned by the fit
(false = component 0). -/
def fitCompsOf (fit : List ℚ → List Bool × List ℚ) (inp : PaaInput) (g : Nat) : List Bool :=
  (fit (sortedLossOf inp g)).1

/-- Line 205: the per-sorted-rank log-likelihoods returned by the fit. -/
def fitScoresOf (fit : List ℚ → List Bool × List ℚ) (inp : PaaInput) (g : Nat) : List ℚ :=
  (fit (sortedLossOf inp g)).2

/-- Lines 210-213: the cutoff rank for ground truth `g`. -/
def cutOf (fit : List ℚ → List Bool × List ℚ) (inp : PaaInput) (g : Nat) : Option Nat :=
  fgCut (fitCompsOf fit inp g) (fitScoresOf fit inp g)

/-- Lines 224-226: the grey write, applied only when `is_grey` is not
`None` (positions are taken inside the current candidate list). -/
def greyApply (labels : List Int) (grey : Option (List Nat)) (cand : List Nat) : List Int :=
  match grey with
  | none => labels
  | some gl => setAll labels (gl.map (fun p => cand.getD p 0)) (-1)

/-- Lines 189-232, the body of the per-ground-truth loop for one `g`:
candidate selection result `cand`; skip on empty; direct positive on a
single candidate; otherwise sort by score, run the mixture `fit` on the
sorted scores, cut at `fgCut`, then commit grey (never fires), negative
(all candidates) and positive (the sorted ranks up to the cutoff)
label writes and the positive box writes. -/
def processGt (fit : List ℚ → List Bool × List ℚ) (inp : PaaInput) (g : Nat)
    (st : PaaState) : PaaState :=
  let cand := candidates inp g
  if cand.length = 0 then st
  else if cand.length = 1 then
    { labels := st.labels.set (cand.getD 0 0) (gtLabelAt inp g)
    , boxes := st.boxes.set (cand.getD 0 0) (gtBoxAt inp g)
    , isGrey := none }
  else
    match cutOf fit inp g with
    | some cut =>
      { labels := setAll (setAll (greyApply st.labels st.isGrey cand)
                    ((ranksOf inp g).map (fun p => cand.getD p 0)) 0)
                    (((ranksOf inp g).take (cut + 1)).map (fun p => cand.getD p 0))
                    (gtLabelAt inp g)
      , boxes := setAll st.boxes
                    (((ranksOf inp g).take (cut + 1)).map (fun p => cand.getD p 0))
                    (gtBoxAt inp g)
      , isGrey := st.isGrey }
    | none =>
      { labels := setAll st.labels ((ranksOf inp g).map (fun p => cand.getD p 0))
                    (gtLabelAt inp g)
      , boxes := setAll st.boxes ((ranksOf inp g).map (fun p => cand.getD p 0))
                    (gtBoxAt inp g)
      , isGrey := none }

/-- Lines 183-236: the whole per-image engine, folding the per-ground-truth
step over the ground truths in order. -/
def computePaa (fit : List ℚ → List Bool × List ℚ) (inp : PaaInput) : PaaState :=
  (List.range (numGt inp)).foldl (fun st g => processGt fit inp g st) (initState inp)

/-- Modelled from the spec: the sklearn `GaussianMixture`
fit/predict/score_samples calls (lines 199-205) are an external
library, not part of this repository.  Per §4.5 the fit is a
2-component EM with fixed symmetric initialization (equal weights 0.5,
unit precisions, means at the sample min and max).  On an all-identical
sample — the case this model is used for — min = max, so both
components start and remain identical, every EM responsibility is
exactly 1/2, `predict`'s argmax tie-break picks component 0 for every
sample, and `score_samples` returns the same log-likelihood for every
sample. -/
def specFitIdentical : List ℚ → List Bool × List ℚ :=
  fun l => (l.map (fun _ => false), l.map (fun _ => 0))

/-- Lines 288-358 of `__call__`, reduced to the branch and name-binding
structure that decides the zero-positive behaviour.  The heavyweight
loss computations of the positive branch are abstracted as the inputs
`clsLossSum` and `regLossSum`; `labels` are the IoU-based labels whose
positives form `pos_inds` (line 288).  Python locals that a branch may
leave unbound (`cls_loss`, `num_pos_avg_per_gpu`) are `Option`s, and
reading an unbound one is a `NameError` (single-worker run,
`iou_pred = None`). -/
def paaLossCall (labels : List Int) (boxReg : List ℚ)
    (clsLossSum regLossSum regLossWeight : ℚ) : Except String (ℚ × ℚ) :=
  let posInds := (List.range labels.length).filter (fun i => decide (0 < labels.getD i 0))
  let branch : Option ℚ × Option ℚ × ℚ :=
    if posInds.length ≠ 0 then
      (some clsLossSum, some (max (posInds.length : ℚ) 1), regLossSum)
    else
      (none, none, boxReg.sum)
  match branch.2.1 with
  | none => Except.error "NameError: name num_pos_avg_per_gpu is not defined"
  | some numPosAvg =>
    match branch.1 with
    | none => Except.error "NameError: name cls_loss is not defined"
    | some clsLoss =>
      Except.ok (clsLoss / numPosAvg, branch.2.2 / numPosAvg * regLossWeight)

theorem interArea_nonneg (p t : Box) : 0 ≤ interArea p t := by
  unfold interArea
  split
  · rename_i h
    nlinarith [sub_pos.mpr h.1, sub_pos.mpr h.2]
  · exact le_refl _

theorem interArea_le_left (p t : Box) (hp1 : p.x1 ≤ p.x2) (hp2 : p.y1 ≤ p.y2) :
    interArea p t ≤ boxArea p := by
  unfold interArea boxArea
  split
  · rename_i h
    have h1 : min p.x2 t.x2 - max p.x1 t.x1 ≤ p.x2 - p.x1 := by
      have := min_le_left p.x2 t.x2
      have := le_max_left p.x1 t.x1
      linarith
    have h2 : min p.y2 t.y2 - max p.y1 t.y1 ≤ p.y2 - p.y1 := by
      have := min_le_left p.y2 t.y2
      have := le_max_left p.y1 t.y1
      linarith
    have h3 : (0:ℚ) < min p.x2 t.x2 - max p.x1 t.x1 := sub_pos.mpr h.1
    have h4 : (0:ℚ) < min p.y2 t.y2 - max p.y1 t.y1 := sub_pos.mpr h.2
    nlinarith
  · nlinarith [sub_nonneg.mpr hp1, sub_nonneg.mpr hp2]

theorem interArea_le_right (p t : Box) (ht1 : t.x1 ≤ t.x2) (ht2 : t.y1 ≤ t.y2) :
    interArea p t ≤ boxArea t := by
  unfold interArea boxArea
  split
  · rename_i h
    have h1 : min p.x2 t.x2 - max p.x1 t.x1 ≤ t.x2 - t.x1 := by
      have := min_le_right p.x2 t.x2
      have := le_max_right p.x1 t.x1
      linarith
    have h2 : min p.y2 t.y2 - max p.y1 t.y1 ≤ t.y2 - t.y1 := by
      have := min_le_right p.y2 t.y2
      have := le_max_right p.y1 t.y1
      linarith
    have h3 : (0:ℚ) < min p.x2 t.x2 - max p.x1 t.x1 := sub_pos.mpr h.1
    have h4 : (0:ℚ) < min p.y2 t.y2 - max p.y1 t.y1 := sub_pos.mpr h.2
    nlinarith
  · nlinarith [sub_nonneg.mpr ht1, sub_nonneg.mpr ht2]

theorem eps_pos : (0:ℚ) < eps := by norm_num [eps]

theorem unionArea_pos (p t : Box) (hp1 : p.x1 ≤ p.x2) (hp2 : p.y1 ≤ p.y2)
    (ht1 : t.x1 ≤ t.x2) (ht2 : t.y1 ≤ t.y2) : 0 < unionArea p t := by
  have h1 := interArea_le_right p t ht1 ht2
  have h2 : 0 ≤ boxArea p := by
    unfold boxArea
    nlinarith [sub_nonneg.mpr hp1, sub_nonneg.mpr hp2]
  have := eps_pos
  unfold unionArea
  linarith

theorem interArea_lt_union (p t : Box) (hp1 : p.x1 ≤ p.x2) (hp2 : p.y1 ≤ p.y2)
    (ht1 : t.x1 ≤ t.x2) (ht2 : t.y1 ≤ t.y2) : interArea p t < unionArea p t := by
  have h1 := interArea_le_left p t hp1 hp2
  have h2 := interArea_le_right p t ht1 ht2
  have := eps_pos
  unfold unionArea
  linarith

theorem enclosingArea_pos (p t : Box) (hp1 : p.x1 ≤ p.x2) (hp2 : p.y1 ≤ p.y2) :
    0 < enclosingArea p t := by
  unfold enclosingArea
  have h1 : (0:ℚ) ≤ max p.x2 t.x2 - min p.x1 t.x1 := by
    have := le_max_left p.x2 t.x2
    have := min_le_left p.x1 t.x1
    linarith
  have h2 : (0:ℚ) ≤ max p.y2 t.y2 - min p.y1 t.y1 := by
    have := le_max_left p.y2 t.y2
    have := min_le_left p.y1 t.y1
    linarith
  nlinarith [eps_pos]

theorem union_le_enclosing (p t : Box) (hp1 : p.x1 ≤ p.x2) (hp2 : p.y1 ≤ p.y2)
    (ht1 : t.x1 ≤ t.x2) (ht2 : t.y1 ≤ t.y2) : unionArea p t ≤ enclosingArea p t := by
  unfold unionArea enclosingArea boxArea
  have hWx : max p.x2 t.x2 + min p.x2 t.x2 = p.x2 + t.x2 := max_add_min _ _
  have hWx1 : max p.x1 t.x1 + min p.x1 t.x1 = p.x1 + t.x1 := max_add_min _ _
  have hWy : max p.y2 t.y2 + min p.y2 t.y2 = p.y2 + t.y2 := max_add_min _ _
  have hWy1 : max p.y1 t.y1 + min p.y1 t.y1 = p.y1 + t.y1 := max_add_min _ _
  have hu1 : min p.x2 t.x2 ≤ p.x2 := min_le_left _ _
  have hu2 : min p.x2 t.x2 ≤ t.x2 := min_le_right _ _
  have hu3 : p.x1 ≤ max p.x1 t.x1 := le_max_left _ _
  have hu4 : t.x1 ≤ max p.x1 t.x1 := le_max_right _ _
  have hv1 : min p.y2 t.y2 ≤ p.y2 := min_le_left _ _
  have hv2 : min p.y2 t.y2 ≤ t.y2 := min_le_right _ _
  have hv3 : p.y1 ≤ max p.y1 t.y1 := le_max_left _ _
  have hv4 : t.y1 ≤ max p.y1 t.y1 := le_max_right _ _
  unfold interArea
  split
  · rename_i h
    nlinarith [mul_nonneg (by linarith : (0:ℚ) ≤ (p.x2 - p.x1) - (min p.x2 t.x2 - max p.x1 t.x1))
        (by linarith : (0:ℚ) ≤ (t.y2 - t.y1) - (min p.y2 t.y2 - max p.y1 t.y1)),
      mul_nonneg (by linarith : (0:ℚ) ≤ (t.x2 - t.x1) - (min p.x2 t.x2 - max p.x1 t.x1))
        (by linarith : (0:ℚ) ≤ (p.y2 - p.y1) - (min p.y2 t.y2 - max p.y1 t.y1))]
  · rename_i h
    push_neg at h
    rcases le_or_lt (min p.x2 t.x2) (max p.x1 t.x1) with hle | hlt
    · nlinarith [mul_nonneg (by linarith : (0:ℚ) ≤ p.x2 - p.x1)
          (by linarith : (0:ℚ) ≤ (p.y2 - p.y1) + (t.y2 - t.y1) - (min p.y2 t.y2 - max p.y1 t.y1) - (p.y2 - p.y1)),
        mul_nonneg (by linarith : (0:ℚ) ≤ t.x2 - t.x1)
          (by linarith : (0:ℚ) ≤ (p.y2 - p.y1) + (t.y2 - t.y1) - (min p.y2 t.y2 - max p.y1 t.y1) - (t.y2 - t.y1)),
        mul_nonneg (by linarith : (0:ℚ) ≤ max p.x1 t.x1 - min p.x2 t.x2)
          (by linarith : (0:ℚ) ≤ (p.y2 - p.y1) + (t.y2 - t.y1) - (min p.y2 t.y2 - max p.y1 t.y1))]
    · have hyle : min p.y2 t.y2 ≤ max p.y1 t.y1 := h hlt
      nlinarith [mul_nonneg (by linarith : (0:ℚ) ≤ p.y2 - p.y1)
          (by linarith : (0:ℚ) ≤ (p.x2 - p.x1) + (t.x2 - t.x1) - (min p.x2 t.x2 - max p.x1 t.x1) - (p.x2 - p.x1)),
        mul_nonneg (by linarith : (0:ℚ) ≤ t.y2 - t.y1)
          (by linarith : (0:ℚ) ≤ (p.x2 - p.x1) + (t.x2 - t.x1) - (min p.x2 t.x2 - max p.x1 t.x1) - (t.x2 - t.x1)),
        mul_nonneg (by linarith : (0:ℚ) ≤ max p.y1 t.y1 - min p.y2 t.y2)
          (by linarith : (0:ℚ) ≤ (p.x2 - p.x1) + (t.x2 - t.x1) - (min p.x2 t.x2 - max p.x1 t.x1))]
theorem clampPred_valid_x (b : Box) : (clampPred b).x1 ≤ (clampPred b).x2 := le_max_left _ _
theorem clampPred_valid_y (b : Box) : (clampPred b).y1 ≤ (clampPred b).y2 := le_max_left _ _

theorem clampPred_of_valid (b : Box) (hx : b.x1 ≤ b.x2) (hy : b.y1 ≤ b.y2) :
    clampPred b = b := by
  unfold clampPred
  cases b
  simp only [Box.mk.injEq]
  refine ⟨trivial, trivial, max_eq_right hx, max_eq_right hy⟩
theorem giouLossPair_eq (p0 t : Box) :
    giouLossPair p0 t =
      1 - (interArea (clampPred p0) t / unionArea (clampPred p0) t
        - (enclosingArea (clampPred p0) t - unionArea (clampPred p0) t)
            / enclosingArea (clampPred p0) t) := rfl

/-- C9 (amended): for a decoded (hence clamped, per the spec of the box
coder) target box, the per-pair GIoU loss lies in [0, 2); both epsilon-
padded denominators are positive (no division by zero); for identical
non-degenerate boxes the loss equals eps/(area+eps) (positive, not 0);
and a degenerate intersection is exactly 0. -/
theorem giou_loss_range (p0 t : Box) (ht1 : t.x1 ≤ t.x2) (ht2 : t.y1 ≤ t.y2) :
    (0 ≤ giouLossPair p0 t ∧ giouLossPair p0 t < 2)
    ∧ (0 < unionArea (clampPred p0) t ∧ 0 < enclosingArea (clampPred p0) t)
    ∧ (p0 = t → t.x1 < t.x2 → t.y1 < t.y2 →
        giouLossPair p0 t = eps / (boxArea t + eps))
    ∧ (¬ (max (clampPred p0).x1 t.x1 < min (clampPred p0).x2 t.x2
          ∧ max (clampPred p0).y1 t.y1 < min (clampPred p0).y2 t.y2) →
        interArea (clampPred p0) t = 0) := by
  set p := clampPred p0 with hp
  have hp1 : p.x1 ≤ p.x2 := clampPred_valid_x p0
  have hp2 : p.y1 ≤ p.y2 := clampPred_valid_y p0
  have hU : 0 < unionArea p t := unionArea_pos p t hp1 hp2 ht1 ht2
  have hE : 0 < enclosingArea p t := enclosingArea_pos p t hp1 hp2
  have hI0 : 0 ≤ interArea p t := interArea_nonneg p t
  have hIU : interArea p t < unionArea p t := interArea_lt_union p t hp1 hp2 ht1 ht2
  have hUE : unionArea p t ≤ enclosingArea p t := union_le_enclosing p t hp1 hp2 ht1 ht2
  have hloss : giouLossPair p0 t =
      2 - (interArea p t / unionArea p t + unionArea p t / enclosingArea p t) := by
    rw [giouLossPair_eq, ← hp]
    field_simp
    ring
  refine ⟨⟨?_, ?_⟩, ⟨hU, hE⟩, ?_, ?_⟩
  · rw [hloss]
    have h1 : interArea p t / unionArea p t ≤ 1 := (div_le_one hU).mpr hIU.le
    have h2 : unionArea p t / enclosingArea p t ≤ 1 := (div_le_one hE).mpr hUE
    linarith
  · rw [hloss]
    have h1 : 0 ≤ interArea p t / unionArea p t := div_nonneg hI0 hU.le
    have h2 : 0 < unionArea p t / enclosingArea p t := div_pos hU hE
    linarith
  · intro hpt hx hy
    subst hpt
    have hcl : p = p0 := by rw [hp, clampPred_of_valid p0 ht1 ht2]
    have hin : interArea p0 p0 = boxArea p0 := by
      unfold interArea boxArea
      rw [if_pos]
      · simp
      · constructor
        · simpa using hx
        · simpa using hy
    have hun : unionArea p0 p0 = boxArea p0 + eps := by
      unfold unionArea
      rw [hin]; ring
    have hen : enclosingArea p0 p0 = boxArea p0 + eps := by
      unfold enclosingArea boxArea
      simp
    have hA : 0 < boxArea p0 + eps := by
      unfold boxArea
      nlinarith [eps_pos, sub_pos.mpr hx, sub_pos.mpr hy]
    rw [giouLossPair_eq, ← hp, hcl, hin, hun, hen]
    field_simp
  · intro h
    unfold interArea
    rw [if_neg h]

/-- C9 (counterexample): with the 1e-7 epsilon added to the union, the
GIoU loss of a box with itself is eps/(area+eps), not 0: at the unit box
it equals 1/10000001. -/
theorem giou_identical_not_zero :
    giouLossPair ⟨0, 0, 1, 1⟩ ⟨0, 0, 1, 1⟩ = 1 / 10000001 ∧
    giouLossPair ⟨0, 0, 1, 1⟩ ⟨0, 0, 1, 1⟩ ≠ 0 := by
  constructor
  · norm_num [giouLossPair, clampPred, interArea, unionArea, enclosingArea, boxArea, eps,
      min_def, max_def]
  · norm_num [giouLossPair, clampPred, interArea, unionArea, enclosingArea, boxArea, eps,
      min_def, max_def]

/-- C9 witness: the range and identical-box value of `giou_loss_range`
evaluated at concrete boxes. -/
theorem giou_loss_range_witness :
    (((0:ℚ) ≤ giouLossPair ⟨0, 0, 2, 3⟩ ⟨1, 1, 4, 5⟩
      ∧ giouLossPair ⟨0, 0, 2, 3⟩ ⟨1, 1, 4, 5⟩ < 2))
    ∧ giouLossPair ⟨1, 1, 4, 5⟩ ⟨1, 1, 4, 5⟩ = eps / (boxArea ⟨1, 1, 4, 5⟩ + eps) := by
  refine ⟨(giou_loss_range ⟨0, 0, 2, 3⟩ ⟨1, 1, 4, 5⟩ (by norm_num) (by norm_num)).1, ?_⟩
  exact (giou_loss_range ⟨1, 1, 4, 5⟩ ⟨1, 1, 4, 5⟩ (by norm_num) (by norm_num)).2.2.1
    rfl (by norm_num) (by norm_num)

/-- C8: a supplied weight vector with positive sum scales the raw
per-pair losses elementwise; otherwise the raw losses are returned, and
the call fails (assertion `losses.numel() != 0`) exactly when that
unweighted batch is empty. -/
theorem giou_weight_contract (preds targets : List Box) (weight : Option (List ℚ))
    (hw : ∀ w, weight = some w → w.length = (List.zipWith giouLossPair preds targets).length) :
    (∀ w, weight = some w → 0 < w.sum →
      GIoULoss preds targets weight =
        Except.ok (List.zipWith (fun l x => l * x) (List.zipWith giouLossPair preds targets) w))
    ∧ ((weight = none ∨ ∃ w, weight = some w ∧ w.sum ≤ 0) →
        List.zipWith giouLossPair preds targets ≠ [] →
        GIoULoss preds targets weight = Except.ok (List.zipWith giouLossPair preds targets))
    ∧ ((∃ e, GIoULoss preds targets weight = Except.error e) ↔
        List.zipWith giouLossPair preds targets = []) := by
  have hcond : List.zipWith giouLossPair preds targets ≠ [] →
      ¬ preds = [] ∧ ¬ targets = [] := by
    intro hne
    constructor
    · intro hp
      exact hne (List.zipWith_eq_nil_iff.mpr (Or.inl hp))
    · intro ht
      exact hne (List.zipWith_eq_nil_iff.mpr (Or.inr ht))
  unfold GIoULoss
  cases weight with
  | none =>
    refine ⟨fun w hw' => (by cases hw'), fun _ hne => (by simp [hcond hne]), ?_⟩
    by_cases h : List.zipWith giouLossPair preds targets = []
    · simp [h]
    · simp [h, hcond h]
  | some w =>
    by_cases hs : 0 < w.sum
    · refine ⟨fun w' hw' hpos => ?_, fun hcase hne => ?_, ?_⟩
      · cases hw'
        simp [hs]
      · rcases hcase with hnone | ⟨w', hw', hle⟩
        · cases hnone
        · cases hw'
          exact absurd hs (not_lt.mpr hle)
      · constructor
        · intro ⟨e, he⟩
          simp [hs] at he
        · intro hempty
          have hwlen := hw w rfl
          rw [hempty] at hwlen
          simp at hwlen
          rw [hwlen] at hs
          simp at hs
    · refine ⟨fun w' hw' hpos => ?_, fun _ hne => ?_, ?_⟩
      · cases hw'
        exact absurd hpos hs
      · simp [hs, hcond hne]
      · by_cases h : List.zipWith giouLossPair preds targets = []
        · simp [hs, h]
        · simp [hs, h, hcond h]

/-- C8 witness: `giou_weight_contract` at a concrete one-pair batch
without weights. -/
theorem giou_weight_contract_witness :
    GIoULoss [⟨0, 0, 2, 2⟩] [⟨0, 0, 1, 1⟩] none =
      Except.ok [giouLossPair ⟨0, 0, 2, 2⟩ ⟨0, 0, 1, 1⟩] :=
  (giou_weight_contract [⟨0, 0, 2, 2⟩] [⟨0, 0, 1, 1⟩] none
    (fun w hw => by cases hw)).2.1 (Or.inl rfl) (by simp)


theorem setAll_nil {α : Type} (l : List α) (v : α) : setAll l [] v = l := rfl

theorem setAll_cons {α : Type} (l : List α) (a : Nat) (rest : List Nat) (v : α) :
    setAll l (a :: rest) v = setAll (l.set a v) rest v := rfl

theorem length_setAll {α : Type} (idxs : List Nat) (l : List α) (v : α) :
    (setAll l idxs v).length = l.length := by
  induction idxs generalizing l with
  | nil => rfl
  | cons a rest ih =>
    rw [setAll_cons, ih, List.length_set]

theorem getD_setAll {α : Type} (idxs : List Nat) (l : List α) (v d : α) (i : Nat) :
    (setAll l idxs v).getD i d = if i ∈ idxs ∧ i < l.length then v else l.getD i d := by
  induction idxs generalizing l with
  | nil => simp [setAll_nil]
  | cons a rest ih =>
    rw [setAll_cons, ih, List.length_set]
    by_cases h1 : i ∈ rest ∧ i < l.length
    · rw [if_pos h1, if_pos ⟨List.mem_cons_of_mem a h1.1, h1.2⟩]
    · rw [if_neg h1]
      by_cases h2 : i = a ∧ i < l.length
      · rw [if_pos ⟨h2.1 ▸ List.mem_cons_self a rest, h2.2⟩]
        simp only [List.getD_eq_getElem?_getD, List.getElem?_set]
        rw [if_pos h2.1.symm, if_pos (h2.1 ▸ h2.2)]
        rfl
      · have hne : ¬ (i ∈ a :: rest ∧ i < l.length) := by
          intro ⟨hm, hlt⟩
          rcases List.mem_cons.mp hm with h | h
          · exact h2 ⟨h, hlt⟩
          · exact h1 ⟨h, hlt⟩
        rw [if_neg hne]
        simp only [List.getD_eq_getElem?_getD, List.getElem?_set]
        by_cases ha : a = i
        · rw [if_pos ha]
          have : ¬ a < l.length := by
            intro hlt
            exact h2 ⟨ha.symm, ha ▸ hlt⟩
          rw [if_neg this, List.getElem?_eq_none (by omega : l.length ≤ i)]
        · rw [if_neg ha]
theorem sortByKey_perm (f : Nat → ℚ) (l : List Nat) : (sortByKey f l).Perm l :=
  List.perm_insertionSort _ l

theorem mem_sortByKey (f : Nat → ℚ) (l : List Nat) (x : Nat) :
    x ∈ sortByKey f l ↔ x ∈ l :=
  (sortByKey_perm f l).mem_iff

theorem sortByKey_sorted (f : Nat → ℚ) (l : List Nat) :
    List.Sorted (keyLT f) (sortByKey f l) :=
  List.sorted_insertionSort _ l

theorem sortByKey_nodup (f : Nat → ℚ) (l : List Nat) (h : l.Nodup) :
    (sortByKey f l).Nodup :=
  ((sortByKey_perm f l).nodup_iff).mpr h

theorem keyLT_le {f : Nat → ℚ} {a b : Nat} (h : keyLT f a b) : f a ≤ f b := by
  rcases h with h | ⟨h, _⟩
  · exact h.le
  · exact h.le

theorem mem_matchIdxLevel (inp : PaaInput) (g lv i : Nat) :
    i ∈ matchIdxLevel inp g lv ↔
      ((∃ j, j < inp.levels.getD lv 0 ∧ i = j + levelStart inp lv)
        ∧ matchedAt inp i = (g : Int) ∧ 0 < labelAt inp i) := by
  unfold matchIdxLevel
  simp only [List.mem_filter, List.mem_map, List.mem_range, decide_eq_true_eq]
  constructor
  · rintro ⟨⟨j, hj, rfl⟩, h2⟩
    exact ⟨⟨j, hj, rfl⟩, h2⟩
  · rintro ⟨⟨j, hj, rfl⟩, h2⟩
    exact ⟨⟨j, hj, rfl⟩, h2⟩

theorem matchIdxLevel_nodup (inp : PaaInput) (g lv : Nat) :
    (matchIdxLevel inp g lv).Nodup := by
  unfold matchIdxLevel
  apply List.Nodup.filter
  apply List.Nodup.map
  · intro a b h
    dsimp at h
    omega
  · exact List.nodup_range _

theorem mem_candLevel {inp : PaaInput} {g lv c : Nat} (h : c ∈ candLevel inp g lv) :
    c ∈ matchIdxLevel inp g lv :=
  (mem_sortByKey _ _ _).mp (List.take_subset _ _ h)

theorem candLevel_nodup (inp : PaaInput) (g lv : Nat) : (candLevel inp g lv).Nodup :=
  List.Nodup.sublist (List.take_sublist _ _)
    (sortByKey_nodup _ _ (matchIdxLevel_nodup inp g lv))

theorem candLevel_length (inp : PaaInput) (g lv : Nat) :
    (candLevel inp g lv).length ≤ inp.topK := by
  unfold candLevel
  rw [List.length_take]
  exact min_le_left _ _
theorem mem_candidates {inp : PaaInput} {g c : Nat} :
    c ∈ candidates inp g ↔ ∃ lv, lv < inp.levels.length ∧ c ∈ candLevel inp g lv := by
  unfold candidates
  simp only [List.mem_flatten, List.mem_map, List.mem_range]
  constructor
  · rintro ⟨l, ⟨lv, hlv, rfl⟩, hc⟩
    exact ⟨lv, hlv, hc⟩
  · rintro ⟨lv, hlv, hc⟩
    exact ⟨candLevel inp g lv, ⟨lv, hlv, rfl⟩, hc⟩

theorem matched_of_mem_candidates {inp : PaaInput} {g c : Nat}
    (h : c ∈ candidates inp g) :
    matchedAt inp c = (g : Int) ∧ 0 < labelAt inp c := by
  obtain ⟨lv, _, hc⟩ := mem_candidates.mp h
  exact ((mem_matchIdxLevel inp g lv c).mp (mem_candLevel hc)).2

theorem sum_take_le_sum_take (l : List Nat) (a b : Nat) (h : a ≤ b) :
    (l.take a).sum ≤ (l.take b).sum := by
  conv_rhs => rw [← List.take_append_drop a (l.take b)]
  rw [List.sum_append, List.take_take, min_eq_left h]
  exact Nat.le_add_right _ _

theorem sum_take_succ_le_sum (l : List Nat) (n : Nat) (hn : n < l.length) :
    (l.take n).sum + l.getD n 0 ≤ l.sum := by
  have h1 : (l.take (n + 1)).sum = (l.take n).sum + l.getD n 0 := by
    rw [List.take_succ, List.sum_append]
    congr 1
    rw [List.getElem?_eq_getElem hn]
    simp [List.getD_eq_getElem?_getD, List.getElem?_eq_getElem hn]
  calc (l.take n).sum + l.getD n 0 = (l.take (n + 1)).sum := h1.symm
    _ ≤ (l.take l.length).sum := sum_take_le_sum_take l _ _ (by omega)
    _ = l.sum := by rw [List.take_length]

theorem candLevel_bounds {inp : PaaInput} {g lv c : Nat} (h : c ∈ candLevel inp g lv) :
    levelStart inp lv ≤ c ∧ c < levelStart inp lv + inp.levels.getD lv 0 := by
  obtain ⟨⟨j, hj, rfl⟩, -⟩ := (mem_matchIdxLevel inp g lv c).mp (mem_candLevel h)
  omega

theorem mem_candidates_lt {inp : PaaInput} {g c : Nat} (h : c ∈ candidates inp g) :
    c < numAnchors inp := by
  obtain ⟨lv, hlv, hc⟩ := mem_candidates.mp h
  have hb := (candLevel_bounds hc).2
  have := sum_take_succ_le_sum inp.levels lv hlv
  unfold numAnchors
  unfold levelStart at hb
  omega

theorem candidates_nodup (inp : PaaInput) (g : Nat) : (candidates inp g).Nodup := by
  unfold candidates
  rw [List.nodup_flatten]
  constructor
  · rintro l hl
    rw [List.mem_map] at hl
    obtain ⟨lv, _, rfl⟩ := hl
    exact candLevel_nodup inp g lv
  · rw [List.pairwise_map]
    have hr : (List.range inp.levels.length).Pairwise (· < ·) := List.pairwise_lt_range _
    apply hr.imp (fun hab => ?_)
    rename_i a b
    intro c hca hcb
    have h1 := (candLevel_bounds hca).2
    have h2 := (candLevel_bounds hcb).1
    have hmono : levelStart inp a + inp.levels.getD a 0 ≤ levelStart inp b := by
      unfold levelStart
      have ha : a < inp.levels.length ∨ inp.levels.length ≤ a := by omega
      rcases ha with ha | ha
      · have hs := sum_take_le_sum_take inp.levels (a + 1) b hab
        have h1' : (inp.levels.take (a + 1)).sum =
            (inp.levels.take a).sum + inp.levels.getD a 0 := by
          rw [List.take_succ, List.sum_append]
          congr 1
          simp [List.getD_eq_getElem?_getD, List.getElem?_eq_getElem ha]
        omega
      · have hga : inp.levels.getD a 0 = 0 := by
          rw [List.getD_eq_getElem?_getD, List.getElem?_eq_none (by omega)]
          rfl
        have hta : inp.levels.take a = inp.levels := List.take_of_length_le (by omega)
        have htb : inp.levels.take b = inp.levels := List.take_of_length_le (by omega)
        rw [hga, hta, htb]
        omega
    omega

theorem candidates_length (inp : PaaInput) (g : Nat) :
    (candidates inp g).length ≤ inp.levels.length * inp.topK := by
  unfold candidates
  rw [List.length_flatten]
  have h1 : ∀ x ∈ (((List.range inp.levels.length).map
      (fun lv => candLevel inp g lv)).map List.length), x ≤ inp.topK := by
    intro x hx
    rw [List.mem_map] at hx
    obtain ⟨l, hl, rfl⟩ := hx
    rw [List.mem_map] at hl
    obtain ⟨lv, _, rfl⟩ := hl
    exact candLevel_length inp g lv
  calc (((List.range inp.levels.length).map (fun lv => candLevel inp g lv)).map
        List.length).sum
      ≤ (((List.range inp.levels.length).map (fun lv => candLevel inp g lv)).map
        List.length).length * inp.topK := by
        exact List.sum_le_card_nsmul _ _ h1
    _ = inp.levels.length * inp.topK := by simp
/-- C4: per level, candidates are at most K anchors drawn from the anchors
whose matched index is g and whose label is positive, and they are
score-minimal among those; the candidate set is their union across
levels, of size at most (number of levels) * K. -/
theorem candidate_selection_spec (inp : PaaInput) (g : Nat) :
    (∀ c ∈ candidates inp g, matchedAt inp c = (g : Int) ∧ 0 < labelAt inp c)
    ∧ (candidates inp g).length ≤ inp.levels.length * inp.topK
    ∧ (∀ lv, (candLevel inp g lv).length ≤ inp.topK
        ∧ (∀ c ∈ candLevel inp g lv, c ∈ matchIdxLevel inp g lv)
        ∧ (∀ c ∈ candLevel inp g lv, ∀ a ∈ matchIdxLevel inp g lv,
            a ∉ candLevel inp g lv → lossAt inp c ≤ lossAt inp a))
    ∧ candidates inp g
        = ((List.range inp.levels.length).map (fun lv => candLevel inp g lv)).flatten := by
  refine ⟨fun c hc => matched_of_mem_candidates hc, candidates_length inp g,
    fun lv => ⟨candLevel_length inp g lv, fun c hc => mem_candLevel hc, ?_⟩, rfl⟩
  intro c hc a ha hna
  set s := sortByKey (lossAt inp) (matchIdxLevel inp g lv) with hs
  have hcl : candLevel inp g lv = s.take inp.topK := rfl
  rw [hcl] at hc hna
  have hsorted : List.Sorted (keyLT (lossAt inp)) s := sortByKey_sorted _ _
  have hsplit : s = s.take inp.topK ++ s.drop inp.topK := (List.take_append_drop _ _).symm
  have hadrop : a ∈ s.drop inp.topK := by
    have hmem : a ∈ s := (mem_sortByKey (lossAt inp) (matchIdxLevel inp g lv) a).mpr ha
    rw [hsplit] at hmem
    rcases List.mem_append.mp hmem with h | h
    · exact absurd h hna
    · exact h
  have hpw := hsorted
  rw [hsplit] at hpw
  exact keyLT_le ((List.pairwise_append.mp hpw).2.2 c hc a hadrop)

def ex4 : PaaInput :=
  { levels := [2, 1], topK := 1, gtLabels := [3], gtBoxes := [⟨0, 0, 4, 4⟩]
  , labelsAll := [3, 3, 3], lossAll := [7, 2, 5], matchedIdx := [0, 0, 0] }

/-- C4 witness: at `ex4` (two levels, K = 1), the candidate set is the
lowest-scored matching anchor of each level, and its members match g. -/
theorem candidate_selection_spec_witness :
    ((1 : Nat) ∈ candidates ex4 0)
    ∧ (matchedAt ex4 1 = (0 : Int) ∧ 0 < labelAt ex4 1)
    ∧ (candidates ex4 0).length ≤ ex4.levels.length * ex4.topK :=
  ⟨by decide, (candidate_selection_spec ex4 0).1 1 (by decide),
    (candidate_selection_spec ex4 0).2.1⟩

/-- C6 (counterexample, existential-import reading): the scenario the
claim describes is impossible — no anchor is ever in the candidate sets
of two distinct ground truths, because candidacy requires the anchor's
single IoU-based matched index to equal that ground truth; hence no two
ground truths ever both mark the same anchor positive. -/
theorem no_anchor_claimed_twice :
    ¬ ∃ (inp : PaaInput) (g1 g2 a : Nat), g1 ≠ g2
        ∧ a ∈ candidates inp g1 ∧ a ∈ candidates inp g2 := by
  rintro ⟨inp, g1, g2, a, hne, h1, h2⟩
  have e1 := (matched_of_mem_candidates h1).1
  have e2 := (matched_of_mem_candidates h2).1
  rw [e1] at e2
  exact hne (by exact_mod_cast e2)

/-- C6 (amended): candidate sets of distinct ground truths are disjoint. -/
theorem candidates_disjoint (inp : PaaInput) (g1 g2 a : Nat) (hne : g1 ≠ g2)
    (h1 : a ∈ candidates inp g1) : a ∉ candidates inp g2 := by
  intro h2
  have e1 := (matched_of_mem_candidates h1).1
  have e2 := (matched_of_mem_candidates h2).1
  rw [e1] at e2
  exact hne (by exact_mod_cast e2)

def ex6 : PaaInput :=
  { levels := [3], topK := 2, gtLabels := [1, 2], gtBoxes := [⟨0, 0, 4, 4⟩, ⟨4, 4, 8, 8⟩]
  , labelsAll := [1, 2, 2], lossAll := [3, 1, 2], matchedIdx := [0, 1, 1] }

/-- C6 witness: at `ex6`, anchor 0 is a candidate of ground truth 0 and
therefore not a candidate of ground truth 1. -/
theorem candidates_disjoint_witness :
    ((0 : Nat) ∈ candidates ex6 0) ∧ (0 : Nat) ∉ candidates ex6 1 :=
  ⟨by decide, candidates_disjoint ex6 0 1 0 (by decide) (by decide)⟩


theorem mem_fgIdx_iff (comps : List Bool) (r : Nat) :
    r ∈ (List.range comps.length).filter (fun r => decide (comps.getD r true = false)) ↔
      (r < comps.length ∧ comps.getD r true = false) := by
  simp [List.mem_filter, List.mem_range]

theorem fgCut_none_iff (comps : List Bool) (scores : List ℚ) :
    fgCut comps scores = none ↔ ∀ r, r < comps.length → comps.getD r true = true := by
  unfold fgCut
  constructor
  · intro h r hr
    rcases hmax : ((List.range comps.length).filter
        (fun r => decide (comps.getD r true = false))).map
        (fun r => scores.getD r 0) |>.max? with _ | m
    · have hempty : ((List.range comps.length).filter
          (fun r => decide (comps.getD r true = false))) = [] :=
        List.map_eq_nil_iff.mp (List.max?_eq_none_iff.mp hmax)
      by_contra hc
      have hmem : r ∈ (List.range comps.length).filter
          (fun r => decide (comps.getD r true = false)) := by
        rw [mem_fgIdx_iff]
        refine ⟨hr, ?_⟩
        revert hc
        cases comps.getD r true <;> simp
      rw [hempty] at hmem
      simp at hmem
    · simp only [hmax] at h
      have hm := List.max?_mem (fun a b => max_choice a b) hmax
      rw [List.mem_map] at hm
      obtain ⟨x, hx, hxm⟩ := hm
      have hfind : ((List.range comps.length).filter
          (fun r => decide (comps.getD r true = false))).find?
          (fun r => decide (scores.getD r 0 = m)) ≠ none := by
        rw [Ne, List.find?_eq_none]
        push_neg
        exact ⟨x, hx, by simpa using hxm⟩
      exact absurd h hfind
  · intro h
    have hempty : ((List.range comps.length).filter
        (fun r => decide (comps.getD r true = false))) = [] := by
      rw [List.filter_eq_nil_iff]
      intro r hr
      rw [List.mem_range] at hr
      have hv := h r hr
      rw [List.getD_eq_getElem?_getD] at hv
      simp [hv]
    simp only [hempty]
    simp

theorem fgCut_some_spec (comps : List Bool) (scores : List ℚ) (cut : Nat)
    (h : fgCut comps scores = some cut) :
    cut < comps.length ∧ comps.getD cut true = false
    ∧ (∀ r, r < comps.length → comps.getD r true = false →
        scores.getD r 0 ≤ scores.getD cut 0)
    ∧ (∀ r, r < cut → comps.getD r true = false →
        scores.getD r 0 ≠ scores.getD cut 0) := by
  unfold fgCut at h
  rcases hmax : ((List.range comps.length).filter
      (fun r => decide (comps.getD r true = false))).map
      (fun r => scores.getD r 0) |>.max? with _ | m
  · simp only [hmax] at h
    cases h
  · simp only [hmax] at h
    have hp : scores.getD cut 0 = m := by
      have := List.find?_some h
      simpa using this
    have hmem : cut ∈ (List.range comps.length).filter
        (fun r => decide (comps.getD r true = false)) := List.mem_of_find?_eq_some h
    have hcut := (mem_fgIdx_iff comps cut).mp hmem
    refine ⟨hcut.1, hcut.2, ?_, ?_⟩
    · intro r hr hcf
      have hrmem : r ∈ (List.range comps.length).filter
          (fun r => decide (comps.getD r true = false)) :=
        (mem_fgIdx_iff comps r).mpr ⟨hr, hcf⟩
      have hin : scores.getD r 0 ∈ ((List.range comps.length).filter
          (fun r => decide (comps.getD r true = false))).map
          (fun r => scores.getD r 0) := List.mem_map_of_mem _ hrmem
      have hle := (List.max?_le_iff (fun a b c => max_le_iff) hmax).mp (le_refl m)
      rw [hp]
      exact hle _ hin
    · intro r hrlt hcf
      have hrmem : r ∈ (List.range comps.length).filter
          (fun r => decide (comps.getD r true = false)) :=
        (mem_fgIdx_iff comps r).mpr ⟨hrlt.trans hcut.1, hcf⟩
      obtain ⟨hpb, as, bs, heq, has⟩ := List.find?_eq_some.mp h
      have hpw : ((List.range comps.length).filter
          (fun r => decide (comps.getD r true = false))).Pairwise (· < ·) :=
        (List.pairwise_lt_range _).filter _
      rw [heq] at hpw hrmem
      have hras : r ∈ as := by
        rcases List.mem_append.mp hrmem with hx | hx
        · exact hx
        · rcases List.mem_cons.mp hx with hx | hx
          · omega
          · have hlt := List.rel_of_pairwise_cons (List.pairwise_append.mp hpw).2.1 hx
            omega
      have hnp := has r hras
      intro hcontra
      rw [hp] at hcontra
      simp only [Bool.not_eq_eq_eq_not, Bool.not_true, decide_eq_false_iff_not] at hnp
      exact hnp hcontra
theorem ranksOf_perm (inp : PaaInput) (g : Nat) :
    (ranksOf inp g).Perm (List.range (candidates inp g).length) :=
  sortByKey_perm _ _

theorem ranksOf_length (inp : PaaInput) (g : Nat) :
    (ranksOf inp g).length = (candidates inp g).length := by
  rw [(ranksOf_perm inp g).length_eq, List.length_range]

theorem mem_ranksOf (inp : PaaInput) (g : Nat) (p : Nat) :
    p ∈ ranksOf inp g ↔ p < (candidates inp g).length := by
  rw [(ranksOf_perm inp g).mem_iff, List.mem_range]

theorem ranksOf_nodup (inp : PaaInput) (g : Nat) : (ranksOf inp g).Nodup :=
  ((ranksOf_perm inp g).nodup_iff).mpr (List.nodup_range _)

theorem ranksOf_sorted (inp : PaaInput) (g : Nat) :
    List.Sorted (keyLT (candLoss inp (candidates inp g))) (ranksOf inp g) :=
  sortByKey_sorted _ _

theorem processGt_empty (fit : List ℚ → List Bool × List ℚ) (inp : PaaInput)
    (g : Nat) (st : PaaState) (h : candidates inp g = []) :
    processGt fit inp g st = st := by
  unfold processGt
  simp [h]

theorem processGt_single (fit : List ℚ → List Bool × List ℚ) (inp : PaaInput)
    (g : Nat) (st : PaaState) (a : Nat) (h : candidates inp g = [a]) :
    processGt fit inp g st =
      { labels := st.labels.set a (gtLabelAt inp g)
      , boxes := st.boxes.set a (gtBoxAt inp g)
      , isGrey := none } := by
  unfold processGt
  simp [h]

theorem processGt_fg (fit : List ℚ → List Bool × List ℚ) (inp : PaaInput)
    (g : Nat) (st : PaaState) (cut : Nat) (h2 : 2 ≤ (candidates inp g).length)
    (hcut : cutOf fit inp g = some cut) :
    processGt fit inp g st =
      { labels := setAll (setAll (greyApply st.labels st.isGrey (candidates inp g))
                    ((ranksOf inp g).map (fun p => (candidates inp g).getD p 0)) 0)
                    (((ranksOf inp g).take (cut + 1)).map
                      (fun p => (candidates inp g).getD p 0)) (gtLabelAt inp g)
      , boxes := setAll st.boxes
                    (((ranksOf inp g).take (cut + 1)).map
                      (fun p => (candidates inp g).getD p 0)) (gtBoxAt inp g)
      , isGrey := st.isGrey } := by
  unfold processGt
  rw [if_neg (by omega), if_neg (by omega), hcut]

theorem processGt_nofg (fit : List ℚ → List Bool × List ℚ) (inp : PaaInput)
    (g : Nat) (st : PaaState) (h2 : 2 ≤ (candidates inp g).length)
    (hcut : cutOf fit inp g = none) :
    processGt fit inp g st =
      { labels := setAll st.labels
                    ((ranksOf inp g).map (fun p => (candidates inp g).getD p 0))
                    (gtLabelAt inp g)
      , boxes := setAll st.boxes
                    ((ranksOf inp g).map (fun p => (candidates inp g).getD p 0))
                    (gtBoxAt inp g)
      , isGrey := none } := by
  unfold processGt
  rw [if_neg (by omega), if_neg (by omega), hcut]
/-- C5: a ground truth with no candidates is skipped (the state is
unchanged), and a ground truth with exactly one candidate has that
anchor marked positive directly, with no mixture fit involved (the
result is the same for every fit function). -/
theorem degenerate_candidates_spec (fit : List ℚ → List Bool × List ℚ)
    (inp : PaaInput) (g : Nat) (st : PaaState) :
    (candidates inp g = [] → processGt fit inp g st = st)
    ∧ (∀ a, candidates inp g = [a] →
        processGt fit inp g st =
          { labels := st.labels.set a (gtLabelAt inp g)
          , boxes := st.boxes.set a (gtBoxAt inp g)
          , isGrey := none }
        ∧ ∀ fit2, processGt fit2 inp g st = processGt fit inp g st) := by
  refine ⟨fun h => processGt_empty fit inp g st h, fun a h => ?_⟩
  refine ⟨processGt_single fit inp g st a h, fun fit2 => ?_⟩
  rw [processGt_single fit inp g st a h, processGt_single fit2 inp g st a h]

def ex5 : PaaInput :=
  { levels := [1], topK := 2, gtLabels := [1, 2], gtBoxes := [⟨0, 0, 4, 4⟩, ⟨4, 4, 8, 8⟩]
  , labelsAll := [2], lossAll := [3], matchedIdx := [1] }

/-- C5 witness: at `ex5`, ground truth 0 has no candidates and is skipped;
ground truth 1 has the single candidate anchor 0, which is marked
positive with class 2. -/
theorem degenerate_candidates_spec_witness :
    (processGt specFitIdentical ex5 0 (initState ex5) = initState ex5)
    ∧ (processGt specFitIdentical ex5 1 (initState ex5)).labels = [2] := by
  constructor
  · exact (degenerate_candidates_spec specFitIdentical ex5 0 (initState ex5)).1 (by decide)
  · rw [((degenerate_candidates_spec specFitIdentical ex5 1 (initState ex5)).2 0
      (by decide)).1]
    decide

/-- C2 (the zero-positive path): when no anchor has a positive IoU-based
label, the positive branch is skipped and evaluating the result
expression reads the never-bound local `num_pos_avg_per_gpu`, raising a
`NameError` instead of returning losses. -/
theorem zero_positive_name_error (labels : List Int) (boxReg : List ℚ)
    (clsLossSum regLossSum regLossWeight : ℚ) (h : ∀ l ∈ labels, l ≤ 0) :
    paaLossCall labels boxReg clsLossSum regLossSum regLossWeight =
      Except.error "NameError: name num_pos_avg_per_gpu is not defined" := by
  unfold paaLossCall
  have hpos : (List.range labels.length).filter
      (fun i => decide (0 < labels.getD i 0)) = [] := by
    rw [List.filter_eq_nil_iff]
    intro i hi
    rw [List.mem_range] at hi
    have hmem : labels.getD i 0 ∈ labels := by
      rw [List.getD_eq_getElem _ _ hi]
      exact List.getElem_mem _
    have hle := h _ hmem
    simp only [decide_eq_true_eq, not_lt]
    exact hle
  simp only [hpos]
  rw [if_neg (by simp)]

/-- C2 witness: the `NameError` at a concrete all-background batch. -/
theorem zero_positive_name_error_witness :
    paaLossCall [0, 0] [1, 2, 3] 10 20 (1 / 2) =
      Except.error "NameError: name num_pos_avg_per_gpu is not defined" :=
  zero_positive_name_error [0, 0] [1, 2, 3] 10 20 (1 / 2) (by decide)

/-- C2 (complement): whenever at least one anchor is positively labeled,
the call returns normally. -/
theorem positive_branch_ok (labels : List Int) (boxReg : List ℚ)
    (clsLossSum regLossSum regLossWeight : ℚ) (i : Nat)
    (hi : i < labels.length) (h : 0 < labels.getD i 0) :
    ∃ v, paaLossCall labels boxReg clsLossSum regLossSum regLossWeight = Except.ok v := by
  unfold paaLossCall
  have hmem : i ∈ (List.range labels.length).filter
      (fun i => decide (0 < labels.getD i 0)) := by
    rw [List.mem_filter, List.mem_range]
    exact ⟨hi, by simpa using h⟩
  have hne : (List.range labels.length).filter
      (fun i => decide (0 < labels.getD i 0)) ≠ [] := by
    intro hempty
    rw [hempty] at hmem
    simp at hmem
  have hlen : ((List.range labels.length).filter
      (fun i => decide (0 < labels.getD i 0))).length ≠ 0 := by
    simpa [List.length_eq_zero] using hne
  simp only [hlen, if_true, ne_eq, not_false_eq_true]
  exact ⟨_, rfl⟩
theorem getD_set {α : Type} (l : List α) (a i : Nat) (v d : α) :
    (l.set a v).getD i d = if i = a ∧ i < l.length then v else l.getD i d := by
  have h : l.set a v = setAll l [a] v := rfl
  rw [h, getD_setAll]
  simp

theorem getD_eq_getElem_of_lt {α : Type} (l : List α) (d : α) (i : Nat)
    (h : i < l.length) : l.getD i d = l[i] := by
  rw [List.getD_eq_getElem?_getD, List.getElem?_eq_getElem h]
  rfl

theorem getD_mem_of_lt {α : Type} (l : List α) (d : α) (i : Nat)
    (h : i < l.length) : l.getD i d ∈ l := by
  rw [getD_eq_getElem_of_lt l d i h]
  exact List.mem_iff_getElem.mpr ⟨i, h, rfl⟩

theorem nodup_getD_inj (l : List Nat) (h : l.Nodup) (p q : Nat)
    (hp : p < l.length) (hq : q < l.length) (he : l.getD p 0 = l.getD q 0) : p = q := by
  rw [getD_eq_getElem_of_lt l 0 p hp, getD_eq_getElem_of_lt l 0 q hq] at he
  exact (List.Nodup.getElem_inj_iff h).mp he

/-- C3: for a ground truth with at least two candidates, the engine sorts
candidate positions ascending by score (`ranksOf` is a permutation of the
positions and carries ascending scores); when the fit assigns some sorted
rank to component 0, the cutoff is the first component-0 rank attaining
the maximal log-likelihood, the candidates at sorted ranks up to and
including the cutoff are labeled with g's class, and every other
candidate is labeled 0 (negative); when no rank is assigned to
component 0, every candidate is labeled with g's class. -/
theorem mixture_partition_spec (fit : List ℚ → List Bool × List ℚ) (inp : PaaInput)
    (g : Nat) (st : PaaState)
    (h2 : 2 ≤ (candidates inp g).length)
    (hgrey : st.isGrey = none)
    (hlen : st.labels.length = numAnchors inp)
    (hcomps : (fitCompsOf fit inp g).length = (candidates inp g).length) :
    ((ranksOf inp g).Perm (List.range (candidates inp g).length))
    ∧ ((ranksOf inp g).map (candLoss inp (candidates inp g))).Sorted (· ≤ ·)
    ∧ (∀ cut, cutOf fit inp g = some cut →
        (cut < (candidates inp g).length
          ∧ (fitCompsOf fit inp g).getD cut true = false
          ∧ (∀ r, r < (candidates inp g).length →
              (fitCompsOf fit inp g).getD r true = false →
              (fitScoresOf fit inp g).getD r 0 ≤ (fitScoresOf fit inp g).getD cut 0)
          ∧ (∀ r, r < cut → (fitCompsOf fit inp g).getD r true = false →
              (fitScoresOf fit inp g).getD r 0 ≠ (fitScoresOf fit inp g).getD cut 0))
        ∧ (∀ k, k < (candidates inp g).length →
            (processGt fit inp g st).labels.getD
                ((candidates inp g).getD ((ranksOf inp g).getD k 0) 0) 0
              = if k ≤ cut then gtLabelAt inp g else 0))
    ∧ (cutOf fit inp g = none →
        ∀ c ∈ candidates inp g,
          (processGt fit inp g st).labels.getD c 0 = gtLabelAt inp g) := by
  have hrlen : (ranksOf inp g).length = (candidates inp g).length := ranksOf_length inp g
  refine ⟨ranksOf_perm inp g, ?_, ?_, ?_⟩
  · exact List.pairwise_map.mpr ((ranksOf_sorted inp g).imp fun h => keyLT_le h)
  · intro cut hcut
    have hspec := fgCut_some_spec _ _ _ hcut
    rw [hcomps] at hspec
    refine ⟨⟨hspec.1, hspec.2.1, hspec.2.2.1, hspec.2.2.2⟩, ?_⟩
    intro k hk
    rw [processGt_fg fit inp g st cut h2 hcut, hgrey]
    simp only [greyApply]
    have hklt : k < (ranksOf inp g).length := by omega
    have hpklt : (ranksOf inp g).getD k 0 < (candidates inp g).length :=
      (mem_ranksOf inp g _).mp (getD_mem_of_lt _ 0 k hklt)
    have haklt : (candidates inp g).getD ((ranksOf inp g).getD k 0) 0 < numAnchors inp :=
      mem_candidates_lt (getD_mem_of_lt _ 0 _ hpklt)
    by_cases hkc : k ≤ cut
    · rw [if_pos hkc, getD_setAll, if_pos ?_]
      constructor
      · have hk' : k < ((ranksOf inp g).take (cut + 1)).length := by
          rw [List.length_take]
          omega
        have he : ((ranksOf inp g).take (cut + 1)).getD k 0 = (ranksOf inp g).getD k 0 := by
          rw [getD_eq_getElem_of_lt _ 0 k hk', List.getElem_take,
            getD_eq_getElem_of_lt _ 0 k hklt]
        rw [← he]
        exact List.mem_map_of_mem _ (getD_mem_of_lt _ 0 k hk')
      · rw [length_setAll, hlen]
        exact haklt
    · rw [if_neg hkc, getD_setAll, if_neg ?_, getD_setAll, if_pos ?_]
      · constructor
        · exact List.mem_map_of_mem _ (getD_mem_of_lt _ 0 k hklt)
        · rw [hlen]
          exact haklt
      · rintro ⟨hmem, -⟩
        rw [List.mem_map] at hmem
        obtain ⟨p, hp, hpe⟩ := hmem
        have hpr : p ∈ ranksOf inp g := List.take_subset _ _ hp
        have hplt : p < (candidates inp g).length := (mem_ranksOf inp g p).mp hpr
        have hpeq : p = (ranksOf inp g).getD k 0 :=
          nodup_getD_inj (candidates inp g) (candidates_nodup inp g) p _ hplt hpklt hpe
        obtain ⟨j, hj, hje⟩ := List.getElem_of_mem hp
        have hjlt : j < (ranksOf inp g).length := by
          rw [List.length_take] at hj
          omega
        have ht : ((ranksOf inp g).take (cut + 1)).getD j 0 = (ranksOf inp g).getD j 0 := by
          rw [getD_eq_getElem_of_lt _ 0 j hj, List.getElem_take,
            getD_eq_getElem_of_lt _ 0 j hjlt]
        have hje' : (ranksOf inp g).getD j 0 = (ranksOf inp g).getD k 0 := by
          rw [← ht, getD_eq_getElem_of_lt _ 0 j hj, hje, hpeq]
        have hjk : j = k := nodup_getD_inj _ (ranksOf_nodup inp g) j k hjlt hklt hje'
        rw [List.length_take] at hj
        omega
  · intro hcut c hc
    rw [processGt_nofg fit inp g st h2 hcut, getD_setAll, if_pos ?_]
    constructor
    · obtain ⟨j, hj, hje⟩ := List.getElem_of_mem hc
      rw [List.mem_map]
      refine ⟨j, (mem_ranksOf inp g j).mpr hj, ?_⟩
      rw [getD_eq_getElem_of_lt _ 0 j hj, hje]
    · rw [hlen]
      exact mem_candidates_lt hc
def ex3 : PaaInput :=
  { levels := [2], topK := 2, gtLabels := [1], gtBoxes := [⟨0, 0, 4, 4⟩]
  , labelsAll := [1, 1], lossAll := [1, 10], matchedIdx := [0, 0] }

def exFit3 : List ℚ → List Bool × List ℚ := fun _ => ([false, true], [7, 3])

/-- C3 witness: `mixture_partition_spec` at `ex3` with a concrete fit
assigning sorted rank 0 to component 0: anchor 0 (rank 0) is positive,
anchor 1 (rank 1) negative. -/
theorem mixture_partition_spec_witness :
    (2 ≤ (candidates ex3 0).length)
    ∧ (processGt exFit3 ex3 0 (initState ex3)).labels.getD 0 0 = 1
    ∧ (processGt exFit3 ex3 0 (initState ex3)).labels.getD 1 0 = 0 := by
  have h := (mixture_partition_spec exFit3 ex3 0 (initState ex3)
    (by decide) (by decide) (by decide) (by decide)).2.2.1 0 (by decide)
  have h0 := h.2 0 (by decide)
  have h1 := h.2 1 (by decide)
  have e0 : (candidates ex3 0).getD ((ranksOf ex3 0).getD 0 0) 0 = 0 := by decide
  have e1 : (candidates ex3 0).getD ((ranksOf ex3 0).getD 1 0) 0 = 1 := by decide
  rw [e0, if_pos (le_refl 0)] at h0
  rw [e1, if_neg (by omega)] at h1
  have egt : gtLabelAt ex3 0 = 1 := by decide
  rw [egt] at h0
  exact ⟨by decide, h0, h1⟩

theorem ranksOf_const (inp : PaaInput) (g : Nat)
    (hsame : ∀ p, p < (candidates inp g).length →
      candLoss inp (candidates inp g) p = candLoss inp (candidates inp g) 0) :
    ranksOf inp g = List.range (candidates inp g).length := by
  unfold ranksOf sortByKey
  apply List.Sorted.insertionSort_eq
  apply List.Pairwise.imp_of_mem ?_ (List.pairwise_lt_range _)
  intro a b ha hb hlt
  rw [List.mem_range] at ha hb
  exact Or.inr ⟨by rw [hsame a ha, hsame b hb], Nat.le_of_lt hlt⟩

/-- C1 (amended): with two or more candidates whose scores are all
numerically identical, the engine (with the spec-modelled fit, which
puts every sample in component 0 with equal log-likelihoods) terminates
and produces the defined partition in which exactly the first candidate
is positive and every other candidate is negative — not the
all-candidates-positive fallback, which runs only when the fit assigns
no candidate to component 0. -/
theorem identical_scores_partition (inp : PaaInput) (g : Nat) (st : PaaState)
    (h2 : 2 ≤ (candidates inp g).length)
    (hgrey : st.isGrey = none)
    (hlen : st.labels.length = numAnchors inp)
    (hsame : ∀ p, p < (candidates inp g).length →
      candLoss inp (candidates inp g) p = candLoss inp (candidates inp g) 0) :
    ∀ k, k < (candidates inp g).length →
      (processGt specFitIdentical inp g st).labels.getD
          ((candidates inp g).getD k 0) 0
        = if k = 0 then gtLabelAt inp g else 0 := by
  have hranks := ranksOf_const inp g hsame
  have hslen : (sortedLossOf inp g).length = (candidates inp g).length := by
    unfold sortedLossOf
    rw [List.length_map, ranksOf_length]
  have hcomps : fitCompsOf specFitIdentical inp g =
      (sortedLossOf inp g).map (fun _ => false) := rfl
  have hscores : fitScoresOf specFitIdentical inp g =
      (sortedLossOf inp g).map (fun _ => (0:ℚ)) := rfl
  have hclen : (fitCompsOf specFitIdentical inp g).length = (candidates inp g).length := by
    rw [hcomps, List.length_map, hslen]
  have hcompsD : ∀ r, r < (candidates inp g).length →
      (fitCompsOf specFitIdentical inp g).getD r true = false := by
    intro r hr
    rw [hcomps, getD_eq_getElem_of_lt _ _ r (by rw [List.length_map, hslen]; exact hr)]
    simp
  have hscoresD : ∀ r, r < (candidates inp g).length →
      (fitScoresOf specFitIdentical inp g).getD r 0 = 0 := by
    intro r hr
    rw [hscores, getD_eq_getElem_of_lt _ _ r (by rw [List.length_map, hslen]; exact hr)]
    simp
  have hnotnone : cutOf specFitIdentical inp g ≠ none := by
    intro hn
    have := (fgCut_none_iff _ _).mp hn 0 (by omega)
    rw [hcompsD 0 (by omega)] at this
    cases this
  obtain ⟨cut, hcut⟩ := Option.ne_none_iff_exists'.mp hnotnone
  have hspec := fgCut_some_spec _ _ _ hcut
  rw [hclen] at hspec
  have hcut0 : cut = 0 := by
    by_contra hne
    have h0cut : 0 < cut := by omega
    have := hspec.2.2.2 0 h0cut (hcompsD 0 (by omega))
    rw [hscoresD 0 (by omega), hscoresD cut hspec.1] at this
    exact this rfl
  subst hcut0
  intro k hk
  rw [processGt_fg specFitIdentical inp g st 0 h2 hcut, hgrey]
  simp only [greyApply]
  have htake : (ranksOf inp g).take 1 = [0] := by
    rw [hranks, List.take_range]
    have : min 1 (candidates inp g).length = 1 := by omega
    rw [this]
    decide
  rw [htake, hranks]
  by_cases hk0 : k = 0
  · subst hk0
    rw [if_pos rfl, getD_setAll, if_pos ?_]
    constructor
    · simp
    · rw [length_setAll, hlen]
      exact mem_candidates_lt (getD_mem_of_lt _ 0 0 (by omega))
  · rw [if_neg hk0, getD_setAll, if_neg ?_, getD_setAll, if_pos ?_]
    · constructor
      · rw [List.mem_map]
        exact ⟨k, List.mem_range.mpr hk, rfl⟩
      · rw [hlen]
        exact mem_candidates_lt (getD_mem_of_lt _ 0 k hk)
    · rintro ⟨hmem, -⟩
      simp only [List.map_cons, List.map_nil, List.mem_singleton] at hmem
      have := nodup_getD_inj (candidates inp g) (candidates_nodup inp g) k 0 hk
        (by omega) hmem
      exact hk0 this
def ex1 : PaaInput :=
  { levels := [2], topK := 2, gtLabels := [1], gtBoxes := [⟨0, 0, 4, 4⟩]
  , labelsAll := [1, 1], lossAll := [5, 5], matchedIdx := [0, 0] }

/-- C1 (counterexample): at `ex1`, ground truth 0 has the two candidates
0 and 1 with identical scores, yet the engine marks only anchor 0
positive (class 1) and anchor 1 negative — not all candidates positive
as the claim states. -/
theorem identical_scores_not_all_positive :
    lossAt ex1 0 = lossAt ex1 1
    ∧ candidates ex1 0 = [0, 1]
    ∧ gtLabelAt ex1 0 = 1
    ∧ (computePaa specFitIdentical ex1).labels = [1, 0] :=
  ⟨by decide, by decide, by decide, by decide⟩

/-- C1 witness: `identical_scores_partition` applied at `ex1`. -/
theorem identical_scores_partition_witness :
    (2 ≤ (candidates ex1 0).length)
    ∧ (processGt specFitIdentical ex1 0 (initState ex1)).labels.getD 0 0 = 1
    ∧ (processGt specFitIdentical ex1 0 (initState ex1)).labels.getD 1 0 = 0 := by
  have hsame : ∀ p, p < (candidates ex1 0).length →
      candLoss ex1 (candidates ex1 0) p = candLoss ex1 (candidates ex1 0) 0 := by
    intro p hp
    have hl : (candidates ex1 0).length = 2 := by decide
    rw [hl] at hp
    interval_cases p
    · rfl
    · decide
  have h0 := identical_scores_partition ex1 0 (initState ex1) (by decide) (by decide)
    (by decide) hsame 0 (by decide)
  have h1 := identical_scores_partition ex1 0 (initState ex1) (by decide) (by decide)
    (by decide) hsame 1 (by decide)
  have e0 : (candidates ex1 0).getD 0 0 = 0 := by decide
  have e1 : (candidates ex1 0).getD 1 0 = 1 := by decide
  rw [e0, if_pos rfl] at h0
  rw [e1, if_neg (by omega)] at h1
  have egt : gtLabelAt ex1 0 = 1 := by decide
  rw [egt] at h0
  exact ⟨by decide, h0, h1⟩

theorem greyApply_length (labels : List Int) (grey : Option (List Nat)) (cand : List Nat) :
    (greyApply labels grey cand).length = labels.length := by
  unfold greyApply
  cases grey with
  | none => rfl
  | some gl => rw [length_setAll]

/-- Case eliminator mirroring the four control-flow paths of the
per-ground-truth loop body. -/
theorem processGt_elim (fit : List ℚ → List Bool × List ℚ) (inp : PaaInput)
    (g : Nat) (st : PaaState) (M : PaaState → Prop)
    (hempty : candidates inp g = [] → M st)
    (hsingle : ∀ a, candidates inp g = [a] →
      M { labels := st.labels.set a (gtLabelAt inp g)
        , boxes := st.boxes.set a (gtBoxAt inp g), isGrey := none })
    (hfg : ∀ cut, 2 ≤ (candidates inp g).length → cutOf fit inp g = some cut →
      M { labels := setAll (setAll (greyApply st.labels st.isGrey (candidates inp g))
            ((ranksOf inp g).map (fun p => (candidates inp g).getD p 0)) 0)
            (((ranksOf inp g).take (cut + 1)).map
              (fun p => (candidates inp g).getD p 0)) (gtLabelAt inp g)
        , boxes := setAll st.boxes
            (((ranksOf inp g).take (cut + 1)).map
              (fun p => (candidates inp g).getD p 0)) (gtBoxAt inp g)
        , isGrey := st.isGrey })
    (hnofg : 2 ≤ (candidates inp g).length → cutOf fit inp g = none →
      M { labels := setAll st.labels
            ((ranksOf inp g).map (fun p => (candidates inp g).getD p 0))
            (gtLabelAt inp g)
        , boxes := setAll st.boxes
            ((ranksOf inp g).map (fun p => (candidates inp g).getD p 0))
            (gtBoxAt inp g)
        , isGrey := none }) :
    M (processGt fit inp g st) := by
  rcases hc : candidates inp g with _ | ⟨a, rest⟩
  · rw [processGt_empty fit inp g st hc]
    exact hempty hc
  · rcases rest with _ | ⟨b, rest2⟩
    · rw [processGt_single fit inp g st a hc]
      exact hsingle a hc
    · have h2 : 2 ≤ (candidates inp g).length := by
        rw [hc]
        simp only [List.length_cons]
        omega
      rcases hcut : cutOf fit inp g with _ | cut
      · rw [processGt_nofg fit inp g st h2 hcut]
        exact hnofg h2 hcut
      · rw [processGt_fg fit inp g st cut h2 hcut]
        exact hfg cut h2 hcut

theorem foldl_inv (fit : List ℚ → List Bool × List ℚ) (inp : PaaInput)
    (P : PaaState → Prop) (gs : List Nat)
    (step : ∀ g, g ∈ gs → ∀ st, P st → P (processGt fit inp g st)) :
    ∀ st, P st → P (gs.foldl (fun st g => processGt fit inp g st) st) := by
  induction gs with
  | nil =>
    intro st h
    exact h
  | cons g rest ih =>
    intro st h
    exact ih (fun g' hg' st' h' => step g' (List.mem_cons_of_mem g hg') st' h')
      _ (step g (List.mem_cons_self g rest) st h)

theorem computePaa_inv (fit : List ℚ → List Bool × List ℚ) (inp : PaaInput)
    (P : PaaState → Prop) (hinit : P (initState inp))
    (step : ∀ g, g < numGt inp → ∀ st, P st → P (processGt fit inp g st)) :
    P (computePaa fit inp) := by
  unfold computePaa
  exact foldl_inv fit inp P (List.range (numGt inp))
    (fun g hg st h => step g (List.mem_range.mp hg) st h) _ hinit

theorem getD_replicate_zero (n i : Nat) :
    (List.replicate n (0 : Int)).getD i 0 = 0 := by
  rw [List.getD_eq_getElem?_getD, List.getElem?_replicate]
  split <;> rfl

theorem initState_labels_length (inp : PaaInput) :
    (initState inp).labels.length = numAnchors inp := by
  unfold initState
  exact List.length_replicate _ _

theorem initState_boxes_length (inp : PaaInput) :
    (initState inp).boxes.length = numAnchors inp := by
  unfold initState
  rw [List.length_map, List.length_range]
/-- C10: the grey selector stays `None` through the whole engine, so the
ignored write is unreachable: when all ground-truth classes are
positive, every final label is nonnegative (background 0 or a class)
and the sentinel -1 never appears. -/
theorem no_ignored_labels (fit : List ℚ → List Bool × List ℚ) (inp : PaaInput)
    (hg : ∀ g, g < numGt inp → 0 < gtLabelAt inp g) :
    (computePaa fit inp).isGrey = none
    ∧ (∀ i, 0 ≤ (computePaa fit inp).labels.getD i 0)
    ∧ (∀ i, (computePaa fit inp).labels.getD i 0 ≠ -1) := by
  have key : (computePaa fit inp).isGrey = none ∧
      ∀ i, 0 ≤ (computePaa fit inp).labels.getD i 0 := by
    apply computePaa_inv fit inp
      (fun st => st.isGrey = none ∧ ∀ i, 0 ≤ st.labels.getD i 0)
    · refine ⟨rfl, fun i => ?_⟩
      have : (initState inp).labels = List.replicate (numAnchors inp) 0 := rfl
      rw [this, getD_replicate_zero]
    · intro g hglt st hP
      obtain ⟨hgrey, hlab⟩ := hP
      apply processGt_elim fit inp g st
        (fun st' => st'.isGrey = none ∧ ∀ i, 0 ≤ st'.labels.getD i 0)
      · intro _
        exact ⟨hgrey, hlab⟩
      · intro a _
        refine ⟨rfl, fun i => ?_⟩
        dsimp only
        rw [getD_set]
        split
        · exact (hg g hglt).le
        · exact hlab i
      · intro cut _ _
        refine ⟨hgrey, fun i => ?_⟩
        dsimp only
        rw [hgrey]
        simp only [greyApply]
        rw [getD_setAll]
        split
        · exact (hg g hglt).le
        · rw [getD_setAll]
          split
          · exact le_refl 0
          · exact hlab i
      · intro _ _
        refine ⟨rfl, fun i => ?_⟩
        dsimp only
        rw [getD_setAll]
        split
        · exact (hg g hglt).le
        · exact hlab i
  refine ⟨key.1, key.2, fun i => ?_⟩
  have := key.2 i
  omega

/-- C7: one box slot exists per anchor (at most one assigned ground-truth
box), and every anchor whose final label is positive has its regression
box equal to the box of the very ground truth whose class is that label. -/
theorem positive_label_box_consistency (fit : List ℚ → List Bool × List ℚ)
    (inp : PaaInput) (i : Nat)
    (h : 0 < (computePaa fit inp).labels.getD i 0) :
    (computePaa fit inp).boxes.length = numAnchors inp
    ∧ ∃ g, g < numGt inp
        ∧ (computePaa fit inp).labels.getD i 0 = gtLabelAt inp g
        ∧ (computePaa fit inp).boxes.getD i zeroBox = gtBoxAt inp g := by
  have key := computePaa_inv fit inp
    (fun st => st.isGrey = none ∧ st.labels.length = numAnchors inp
      ∧ st.boxes.length = numAnchors inp
      ∧ ∀ j, 0 < st.labels.getD j 0 →
          ∃ g, g < numGt inp ∧ st.labels.getD j 0 = gtLabelAt inp g
            ∧ st.boxes.getD j zeroBox = gtBoxAt inp g)
    ?_ ?_
  · exact ⟨key.2.2.1, key.2.2.2 i h⟩
  · refine ⟨rfl, initState_labels_length inp, initState_boxes_length inp, fun j hj => ?_⟩
    have hz : (initState inp).labels = List.replicate (numAnchors inp) 0 := rfl
    rw [hz, getD_replicate_zero] at hj
    omega
  · intro g hglt st hP
    obtain ⟨hgrey, hllen, hblen, hinv⟩ := hP
    apply processGt_elim fit inp g st
      (fun st' => st'.isGrey = none ∧ st'.labels.length = numAnchors inp
        ∧ st'.boxes.length = numAnchors inp
        ∧ ∀ j, 0 < st'.labels.getD j 0 →
            ∃ g, g < numGt inp ∧ st'.labels.getD j 0 = gtLabelAt inp g
              ∧ st'.boxes.getD j zeroBox = gtBoxAt inp g)
    · intro _
      exact ⟨hgrey, hllen, hblen, hinv⟩
    · intro a _
      refine ⟨rfl, by dsimp only; rw [List.length_set]; exact hllen,
        by dsimp only; rw [List.length_set]; exact hblen, fun j hj => ?_⟩
      dsimp only at hj ⊢
      rw [getD_set] at hj
      by_cases hcase : j = a ∧ j < st.labels.length
      · rw [if_pos hcase] at hj
        refine ⟨g, hglt, ?_, ?_⟩
        · rw [getD_set, if_pos hcase]
        · rw [getD_set, if_pos ⟨hcase.1, by omega⟩]
      · rw [if_neg hcase] at hj
        obtain ⟨g', hg', he1, he2⟩ := hinv j hj
        refine ⟨g', hg', ?_, ?_⟩
        · rw [getD_set, if_neg hcase]
          exact he1
        · rw [getD_set, if_neg ?_]
          · exact he2
          · rintro ⟨hh1, hh2⟩
            exact hcase ⟨hh1, by omega⟩
    · intro cut _ _
      refine ⟨hgrey, ?_, ?_, ?_⟩
      · dsimp only
        rw [length_setAll, length_setAll, greyApply_length]
        exact hllen
      · dsimp only
        rw [length_setAll]
        exact hblen
      · intro j hj
        dsimp only at hj ⊢
        rw [hgrey] at hj ⊢
        simp only [greyApply] at hj ⊢
        rw [getD_setAll, length_setAll] at hj
        by_cases hcase : j ∈ ((ranksOf inp g).take (cut + 1)).map
            (fun p => (candidates inp g).getD p 0) ∧ j < st.labels.length
        · rw [if_pos hcase] at hj
          refine ⟨g, hglt, ?_, ?_⟩
          · rw [getD_setAll, length_setAll, if_pos hcase]
          · rw [getD_setAll, if_pos ⟨hcase.1, by omega⟩]
        · rw [if_neg hcase] at hj
          rw [getD_setAll] at hj
          by_cases hneg : j ∈ (ranksOf inp g).map
              (fun p => (candidates inp g).getD p 0) ∧ j < st.labels.length
          · rw [if_pos hneg] at hj
            omega
          · rw [if_neg hneg] at hj
            obtain ⟨g', hg', he1, he2⟩ := hinv j hj
            refine ⟨g', hg', ?_, ?_⟩
            · rw [getD_setAll, length_setAll, if_neg hcase, getD_setAll, if_neg hneg]
              exact he1
            · rw [getD_setAll, if_neg ?_]
              · exact he2
              · rintro ⟨hh1, hh2⟩
                exact hcase ⟨hh1, by omega⟩
    · intro _ _
      refine ⟨rfl, ?_, ?_, ?_⟩
      · dsimp only
        rw [length_setAll]
        exact hllen
      · dsimp only
        rw [length_setAll]
        exact hblen
      · intro j hj
        dsimp only at hj ⊢
        rw [getD_setAll] at hj
        by_cases hcase : j ∈ (ranksOf inp g).map
            (fun p => (candidates inp g).getD p 0) ∧ j < st.labels.length
        · rw [if_pos hcase] at hj
          refine ⟨g, hglt, ?_, ?_⟩
          · rw [getD_setAll, if_pos hcase]
          · rw [getD_setAll, if_pos ⟨hcase.1, by omega⟩]
        · rw [if_neg hcase] at hj
          obtain ⟨g', hg', he1, he2⟩ := hinv j hj
          refine ⟨g', hg', ?_, ?_⟩
          · rw [getD_setAll, if_neg hcase]
            exact he1
          · rw [getD_setAll, if_neg ?_]
            · exact he2
            · rintro ⟨hh1, hh2⟩
              exact hcase ⟨hh1, by omega⟩
/-- C10 witness: `no_ignored_labels` at `ex6`. -/
theorem no_ignored_labels_witness :
    (computePaa specFitIdentical ex6).isGrey = none
    ∧ (computePaa specFitIdentical ex6).labels.getD 0 0 ≠ -1 := by
  have h := no_ignored_labels specFitIdentical ex6 ?_
  · exact ⟨h.1, h.2.2 0⟩
  · intro g hgl
    have hn : numGt ex6 = 2 := by decide
    rw [hn] at hgl
    interval_cases g
    · decide
    · decide

/-- C7 witness: `positive_label_box_consistency` at `ex6`, anchor 0. -/
theorem positive_label_box_consistency_witness :
    (computePaa specFitIdentical ex6).boxes.length = numAnchors ex6
    ∧ ∃ g, g < numGt ex6
        ∧ (computePaa specFitIdentical ex6).labels.getD 0 0 = gtLabelAt ex6 g
        ∧ (computePaa specFitIdentical ex6).boxes.getD 0 zeroBox = gtBoxAt ex6 g :=
  positive_label_box_consistency specFitIdentical ex6 0 (by decide)

end PAA
